import Mathlib

/-!
# Verification of the FuzzyPSI-hamming protocol engine

Shallow embedding of the C++ sources of the FuzzyPSI-hamming repository
(two-party fuzzy private set intersection under Hamming distance) together
with proofs and refutations of the frozen specification claims.

Conventions of the embedding:
* C++ `uint8_t` / `int` / `uint64_t` values are modelled as `Nat` (with an
  explicit `% 256` where byte wrap-around matters) or as `Int` where the
  source computes with signed 64-bit differences that stay tiny.
* `osuCrypto::block` (128-bit) is a pair of two 64-bit words, modelled as
  `Nat × Nat`.
* PRNG draws are not modelled as a stream cipher: each function that
  consumes randomness takes the drawn values as explicit arguments
  (a `List Nat` or a `Nat → Nat` supply), exactly one per `prng` call of
  the source.
* BFV ciphertexts are modelled semantically by the plaintext slot vector
  they encrypt (`List Nat`); homomorphic add / sub / plain-multiply act
  slot-wise, matching the batched BFV evaluator the code uses.
* Channel traffic is modelled as an explicit trace (a `List` of message
  descriptors); a `recv` consumes from an explicit reply supply.
-/

namespace FPSI

/-! ## utils.cpp -/

/-- Model of `utils::hammingDistance` (src/utils.cpp:54-65): counts positions below
the smaller of the two lengths where the entries differ. -/
def hammingDistance (v1 v2 : List Nat) : Nat :=
  (List.range (min v1.length v2.length)).countP
    (fun i => !(v1.getD i 0 == v2.getD i 0))

/-- Model of `utils::vectorToBlock` (src/utils.cpp:67-83). Blocks are modelled
as their little-endian memory pair (word 0, word 1). The function accumulates
`vec[offset..offset+63]` into its local variable `low` and
`vec[offset+64..offset+127]` into `high` (bit `i` set whenever the entry is
nonzero) and ends with `return block(low, high)` — but osuCrypto's two-word
constructor `block(x1, x0)` takes the HIGH word first (`_mm_set_epi64x`), so
the returned block's memory pair is `(high, low)`: the first 64 packed bits
land in memory word 1. -/
def vectorToBlock (vec : List Nat) (offset : Nat) : Nat × Nat :=
  let low := (List.range 64).foldl
    (fun acc i => if offset + i < vec.length ∧ vec.getD (offset + i) 0 ≠ 0
                  then acc ||| (1 <<< i) else acc) 0
  let high := (List.range 64).foldl
    (fun acc i => if offset + 64 + i < vec.length ∧ vec.getD (offset + 64 + i) 0 ≠ 0
                  then acc ||| (1 <<< i) else acc) 0
  (high, low)

/-- Model of `utils::blockToVector` (src/utils.cpp:85-102): `memcpy` exposes
the block's memory words, entry `i < 64` is bit `i` of memory word 0 (the
pair's first component), entry `64 + i` is bit `i` of memory word 1. -/
def blockToVector (b : Nat × Nat) (d : Nat) : List Nat :=
  (List.range d).map (fun i =>
    if i < 64 then (b.1 >>> i) &&& 1 else (b.2 >>> (i - 64)) &&& 1)

/-- One `std::swap(positions[i], positions[j])` on a list. -/
def swapList (l : List Nat) (i j : Nat) : List Nat :=
  (l.set i (l.getD j 0)).set j (l.getD i 0)

/-- The Fisher-Yates loop of `utils::generateVectorWithDistance`
(src/utils.cpp:40-44): for `i = d-1` down to `1`, swap index `i` with index
`rand i % (i+1)`, starting from the identity list `[0, …, d-1]`. -/
def fisherYates (d : Nat) (rand : Nat → Nat) : List Nat :=
  ((List.range' 1 (d - 1)).reverse).foldl
    (fun ps i => swapList ps i (rand i % (i + 1)))
    (List.range d)

/-- The byte flip `vec[p] = 1 - vec[p]` on `uint8_t` (src/utils.cpp:48):
`1 - x` is computed in `int` and converted back mod 256. -/
def flipByte (x : Nat) : Nat := (256 + 1 - x) % 256

/-- Model of `utils::generateVectorWithDistance` (src/utils.cpp:24-52): clamp the
requested distance to the length, Fisher-Yates-shuffle the index list, and
flip the entries at the first `distance` shuffled indices. -/
def generateVectorWithDistance (base : List Nat) (t : Nat) (rand : Nat → Nat) :
    List Nat :=
  let d := base.length
  let distance := min t d
  let positions := fisherYates d rand
  (positions.take distance).foldl
    (fun v p => v.set p (flipByte (v.getD p 0))) base

/-! ### Lemmas about the bit packing (claim C9) -/

theorem testBit_setBits_foldl (P : Nat → Prop) [DecidablePred P]
    (n j acc : Nat) :
    (((List.range n).foldl
        (fun a i => if P i then a ||| (1 <<< i) else a) acc).testBit j)
      = (acc.testBit j || (decide (j < n) && decide (P j))) := by
  induction n generalizing acc with
  | zero => simp
  | succ n ih =>
    rw [List.range_succ, List.foldl_append, List.foldl_cons, List.foldl_nil]
    by_cases hP : P n
    · simp only [hP, if_true]
      rw [Nat.one_shiftLeft, Nat.testBit_or, ih, Nat.testBit_two_pow]
      by_cases hj : j = n
      · subst hj
        simp [hP, Nat.lt_succ_self]
      · have : (decide (n = j)) = false := by simp [Ne.symm hj]
        rw [this]
        have : (decide (j < n + 1)) = decide (j < n) := by
          simp only [decide_eq_decide]
          omega
        rw [this]
        simp
    · simp only [hP, if_false]
      rw [ih]
      by_cases hj : j = n
      · subst hj
        simp [hP]
      · have : (decide (j < n + 1)) = decide (j < n) := by
          simp only [decide_eq_decide]
          omega
        rw [this]

theorem shiftRight_and_one (m i : Nat) :
    (m >>> i) &&& 1 = if m.testBit i then 1 else 0 := by
  rw [Nat.and_one_is_mod, Nat.shiftRight_eq_div_pow, Nat.testBit_to_div_mod]
  rcases Nat.mod_two_eq_zero_or_one (m / 2 ^ i) with h | h <;> simp [h]

/-- Counterexample to C9: the round trip does not return the input. For
v = [1] (d = 1), `vectorToBlock` packs the bit into its `low` variable but
`block(low, high)` stores it in memory word 1, while `blockToVector` reads
entry 0 from memory word 0 — so the composition yields [0], not [1]. -/
theorem vectorToBlock_roundTrip_counterexample :
    blockToVector (vectorToBlock [1] 0) 1 = [0] ∧ ([0] : List Nat) ≠ [1] := by
  constructor
  · rfl
  · decide

/-- C9 (amended): for binary vectors of length d ≤ 128, the composition
`blockToVector (vectorToBlock v 0) d` swaps the two 64-bit halves: entry
i < 64 of the result is `v[64+i]` (0 when 64+i ≥ d, so the result is
all-zero whenever d ≤ 64), and entry i ≥ 64 is `v[i-64]`. The round trip is
not the identity, because `block(x1, x0)` takes the high word first while
`blockToVector` reads the memory words in little-endian order. -/
theorem blockToVector_vectorToBlock_swapped (v : List Nat) (d : Nat)
    (hlen : v.length = d) (hd : d ≤ 128) (hbits : ∀ x ∈ v, x ≤ 1) :
    blockToVector (vectorToBlock v 0) d
      = (List.range d).map (fun i =>
          if i < 64 then (if 64 + i < d then v.getD (64 + i) 0 else 0)
          else v.getD (i - 64) 0) := by
  apply List.ext_getElem
  · simp [blockToVector]
  intro i h1 h2
  have hid : i < d := by simpa [blockToVector] using h1
  simp only [blockToVector, List.getElem_map, List.getElem_range]
  by_cases h64 : i < 64
  · -- the result's low half comes from memory word 0 = the `high` packing
    simp only [h64, if_true, vectorToBlock]
    rw [shiftRight_and_one,
      testBit_setBits_foldl (fun k => 0 + 64 + k < v.length ∧ v.getD (0 + 64 + k) 0 ≠ 0)]
    simp only [Nat.zero_testBit, Bool.false_or, Nat.zero_add]
    by_cases hin : 64 + i < d
    · have hiv : 64 + i < v.length := by omega
      have hvd : v.getD (64 + i) 0 = v[64 + i] := by
        simp [List.getD_eq_getElem?_getD, List.getElem?_eq_getElem hiv]
      have hvi : v[64 + i] ≤ 1 := hbits _ (List.getElem_mem hiv)
      rcases Nat.le_one_iff_eq_zero_or_eq_one.mp hvi with h0 | h1'
      · simp [h64, hin, hiv, hvd, h0]
      · simp [h64, hin, hiv, hvd, h1']
    · have hiv : ¬ 64 + i < v.length := by omega
      simp [h64, hin, hiv]
  · -- the result's high half comes from memory word 1 = the `low` packing
    have h164 : i - 64 < 64 := by omega
    have hiv : i - 64 < v.length := by omega
    have hvd : v.getD (i - 64) 0 = v[i - 64] := by
      simp [List.getD_eq_getElem?_getD, List.getElem?_eq_getElem hiv]
    have hvi : v[i - 64] ≤ 1 := hbits _ (List.getElem_mem hiv)
    simp only [h64, if_false, vectorToBlock]
    rw [shiftRight_and_one,
      testBit_setBits_foldl (fun k => 0 + k < v.length ∧ v.getD (0 + k) 0 ≠ 0)]
    simp only [Nat.zero_testBit, Bool.false_or, Nat.zero_add]
    rcases Nat.le_one_iff_eq_zero_or_eq_one.mp hvi with h0 | h1'
    · simp [h164, hiv, hvd, h0]
    · simp [h164, hiv, hvd, h1']

/-! ### Lemmas about the Fisher-Yates shuffle (claim C10) -/

theorem getD_set (v : List Nat) (p x i : Nat) (hp : p < v.length) :
    (v.set p x).getD i 0 = if i = p then x else v.getD i 0 := by
  by_cases h : i = p
  · subst h
    simp [List.getD_eq_getElem?_getD, List.getElem?_set_self hp]
  · simp [List.getD_eq_getElem?_getD, List.getElem?_set_ne (Ne.symm h), h]

theorem cons_set_perm (t : List Nat) (a : Nat) :
    ∀ j, j < t.length → (t.getD j 0 :: t.set j a).Perm (a :: t) := by
  induction t with
  | nil => intro j hj; simp at hj
  | cons b t ih =>
    intro j hj
    cases j with
    | zero =>
      simpa using List.Perm.swap a b t
    | succ j =>
      have hj' : j < t.length := by simpa using hj
      exact (List.Perm.swap b (t.getD j 0) (t.set j a)).trans
        ((((ih j hj').cons b)).trans (List.Perm.swap a b t))

theorem swapList_perm (l : List Nat) (i j : Nat)
    (hi : i < l.length) (hj : j < l.length) : (swapList l i j).Perm l := by
  induction l generalizing i j with
  | nil => simp at hi
  | cons a t ih =>
    cases i with
    | zero =>
      cases j with
      | zero => simp [swapList]
      | succ j =>
        have hj' : j < t.length := by simpa using hj
        have h := cons_set_perm t a j hj'
        simpa [swapList] using h
    | succ i =>
      cases j with
      | zero =>
        have hi' : i < t.length := by simpa using hi
        have h := cons_set_perm t a i hi'
        simpa [swapList] using h
      | succ j =>
        have heq : swapList (a :: t) (i + 1) (j + 1) = a :: swapList t i j := by
          simp [swapList]
        rw [heq]
        exact (ih i j (by simpa using hi) (by simpa using hj)).cons a

theorem foldl_swap_perm (rand : Nat → Nat) (d : Nat) (is : List Nat) :
    ∀ ps : List Nat, (∀ i ∈ is, i < d) → ps.Perm (List.range d) →
    (is.foldl (fun ps i => swapList ps i (rand i % (i + 1))) ps).Perm
      (List.range d) := by
  induction is with
  | nil => intro ps _ h; simpa
  | cons i is ih =>
    intro ps hmem hperm
    simp only [List.foldl_cons]
    apply ih _ (fun x hx => hmem x (List.mem_cons_of_mem _ hx))
    have hlen : ps.length = d := by
      rw [hperm.length_eq, List.length_range]
    have hi : i < ps.length := by
      rw [hlen]; exact hmem i (List.mem_cons_self _ _)
    have hj : rand i % (i + 1) < ps.length := by
      have h1 : rand i % (i + 1) < i + 1 := Nat.mod_lt _ (Nat.succ_pos i)
      omega
    exact (swapList_perm ps i _ hi hj).trans hperm

theorem fisherYates_perm (d : Nat) (rand : Nat → Nat) :
    (fisherYates d rand).Perm (List.range d) := by
  apply foldl_swap_perm
  · intro i hi
    simp only [List.mem_reverse, List.mem_range'_1] at hi
    omega
  · exact List.Perm.refl _

theorem flips_foldl_length (ps v : List Nat) :
    (ps.foldl (fun v p => v.set p (flipByte (v.getD p 0))) v).length
      = v.length := by
  induction ps generalizing v with
  | nil => rfl
  | cons p ps ih =>
    simp only [List.foldl_cons]
    rw [ih]
    simp

theorem flips_foldl_getD (ps : List Nat) :
    ∀ v : List Nat, ps.Nodup → (∀ p ∈ ps, p < v.length) →
    ∀ i, i < v.length →
    (ps.foldl (fun v p => v.set p (flipByte (v.getD p 0))) v).getD i 0
      = if i ∈ ps then flipByte (v.getD i 0) else v.getD i 0 := by
  induction ps with
  | nil => intro v _ _ i _; simp
  | cons p ps ih =>
    intro v hnd hmem i hi
    have hp : p < v.length := hmem p (List.mem_cons_self _ _)
    have hnotp : p ∉ ps := (List.nodup_cons.mp hnd).1
    simp only [List.foldl_cons]
    rw [ih (v.set p (flipByte (v.getD p 0))) (List.nodup_cons.mp hnd).2
      (by intro q hq; rw [List.length_set]; exact hmem q (List.mem_cons_of_mem _ hq))
      i (by simpa using hi)]
    by_cases hip : i = p
    · subst hip
      rw [if_neg hnotp, getD_set v i _ i hp, if_pos rfl,
        if_pos (List.mem_cons_self i ps)]
    · rw [getD_set v p _ i hp]
      simp [List.mem_cons, hip]

theorem flipByte_ne (x : Nat) (hx : x < 256) : flipByte x ≠ x := by
  unfold flipByte
  omega

theorem nodup_filter_length (d : Nat) (ps : List Nat)
    (hnd : ps.Nodup) (hmem : ∀ p ∈ ps, p < d) :
    (List.range d).countP (fun i => decide (i ∈ ps)) = ps.length := by
  rw [List.countP_eq_length_filter]
  have hperm : ((List.range d).filter (fun i => decide (i ∈ ps))).Perm ps := by
    apply List.perm_of_nodup_nodup_toFinset_eq
    · exact (List.nodup_range _).filter _
    · exact hnd
    · ext x
      simp only [List.mem_toFinset, List.mem_filter, List.mem_range,
        decide_eq_true_eq]
      constructor
      · rintro ⟨_, hx⟩; exact hx
      · intro hx; exact ⟨hmem x hx, hx⟩
  exact hperm.length_eq

/-- C10: `utils::generateVectorWithDistance` returns a vector of the same
length whose Hamming distance to the base is exactly `min t d`: the
Fisher-Yates shuffle yields distinct positions and flipping a byte always
changes it. -/
theorem generateVectorWithDistance_exact (base : List Nat) (t : Nat)
    (rand : Nat → Nat) (hb : ∀ x ∈ base, x < 256) :
    (generateVectorWithDistance base t rand).length = base.length ∧
    hammingDistance base (generateVectorWithDistance base t rand)
      = min t base.length := by
  have hperm := fisherYates_perm base.length rand
  have hfylen : (fisherYates base.length rand).length = base.length := by
    rw [hperm.length_eq, List.length_range]
  have hnd : ((fisherYates base.length rand).take (min t base.length)).Nodup :=
    (List.take_sublist _ _).nodup
      (hperm.nodup_iff.mpr (List.nodup_range _))
  have hmem : ∀ p ∈ (fisherYates base.length rand).take (min t base.length),
      p < base.length := by
    intro p hp
    have h1 := List.take_subset _ _ hp
    have h2 := hperm.mem_iff.mp h1
    simpa [List.mem_range] using h2
  have hpslen : ((fisherYates base.length rand).take (min t base.length)).length
      = min t base.length := by
    rw [List.length_take, hfylen]
    omega
  have hresult : generateVectorWithDistance base t rand
      = ((fisherYates base.length rand).take (min t base.length)).foldl
          (fun v p => v.set p (flipByte (v.getD p 0))) base := rfl
  have hlen : (generateVectorWithDistance base t rand).length = base.length := by
    rw [hresult, flips_foldl_length]
  refine ⟨hlen, ?_⟩
  have hham : hammingDistance base (generateVectorWithDistance base t rand)
      = (List.range base.length).countP
          (fun i => !(base.getD i 0 ==
            (generateVectorWithDistance base t rand).getD i 0)) := by
    simp only [hammingDistance]
    rw [hlen, Nat.min_self]
  rw [hham,
    List.countP_congr (q := fun i => decide
      (i ∈ (fisherYates base.length rand).take (min t base.length))) ?_,
    nodup_filter_length _ _ hnd hmem, hpslen]
  intro i hi
  have hid : i < base.length := List.mem_range.mp hi
  rw [hresult, flips_foldl_getD _ base hnd hmem i hid]
  by_cases hin : i ∈ (fisherYates base.length rand).take (min t base.length)
  · have hbase : base.getD i 0 < 256 := by
      have hgd : base.getD i 0 = base[i] := by
        simp [List.getD_eq_getElem?_getD, List.getElem?_eq_getElem hid]
      rw [hgd]
      exact hb _ (List.getElem_mem hid)
    have hne := flipByte_ne _ hbase
    simp only [hin, if_true]
    simp only [decide_eq_true_eq, hin, iff_true, Bool.not_eq_true',
      beq_eq_false_iff_ne, ne_eq]
    exact fun h => hne h.symm
  · simp [hin]

/-- Witness for C10 at a concrete input. -/
theorem generateVectorWithDistance_exact_witness :
    (generateVectorWithDistance [1, 0, 1, 0] 2 (fun i => 3 * i + 1)).length = 4 ∧
    hammingDistance [1, 0, 1, 0]
      (generateVectorWithDistance [1, 0, 1, 0] 2 (fun i => 3 * i + 1)) = 2 := by
  have h := generateVectorWithDistance_exact [1, 0, 1, 0] 2 (fun i => 3 * i + 1)
    (by intro x hx; fin_cases hx <;> decide)
  simpa using h

/-- Witness for the amended C9 at a concrete input: for a length-5 binary
vector the round trip returns the all-zero vector (the half-swap leaves
nothing in the low memory word). -/
theorem blockToVector_vectorToBlock_swapped_witness :
    blockToVector (vectorToBlock [1, 0, 0, 1, 1] 0) 5 = [0, 0, 0, 0, 0] := by
  rw [blockToVector_vectorToBlock_swapped [1, 0, 0, 1, 1] 5 (by decide)
    (by decide) (by intro x hx; fin_cases hx <;> decide)]
  rfl

/-! ## secure_primitives.h -/

/-- Model of `SecretSharedPEQT::generateShares` (src/unnamed/part_000:20-35): draws a
random bit `a` and sets `b = a ⊕ [x = y]`. The PRNG draw is passed in as
`rnd`; the source keeps `rnd &&& 1`. -/
def generateShares (x y rnd : Nat) : Nat × Nat :=
  let equal : Nat := if x = y then 1 else 0
  let share_a := rnd &&& 1
  (share_a, share_a ^^^ equal)

/-- Sender side of `PrivateEqualityTest::testAnyOne`
(src/unnamed/part_000:170-194), composed with the Receiver side
(src/unnamed/part_000:196-211) holding the same flag vector: the Sender
masks the flags with `masks`, the Receiver replies with the OR of
`masked[i] ^ flags[i]`, and the Sender outputs `(reply ^ OR masks) == 1`. -/
def testAnyOneReceiverReply (flags masked : List Nat) : Nat :=
  (List.zipWith (fun m f => m ^^^ f) masked flags).foldl (fun r x => r ||| x) 0

def testAnyOneSenderOut (flags masks : List Nat) : Bool :=
  let masked := List.zipWith (fun f m => f ^^^ m) flags masks
  let reply := testAnyOneReceiverReply flags masked
  let localOr := masks.foldl (fun r x => r ||| x) 0
  (reply ^^^ localOr) == 1

theorem zipWith_xor_cancel (flags : List Nat) :
    ∀ masks : List Nat, masks.length = flags.length →
    List.zipWith (fun m f => m ^^^ f)
      (List.zipWith (fun f m => f ^^^ m) flags masks) flags = masks := by
  induction flags with
  | nil =>
    intro masks h
    cases masks with
    | nil => rfl
    | cons m ms => simp at h
  | cons f fs ih =>
    intro masks h
    cases masks with
    | nil => simp at h
    | cons m ms =>
      simp only [List.zipWith_cons_cons]
      rw [ih ms (by simpa using h)]
      congr 1
      rw [Nat.xor_comm f m, Nat.xor_assoc, Nat.xor_self, Nat.xor_zero]

/-- Counterexample to C1: the Receiver produced the single flag e = [1]
(so some e_ℓ equals 1) yet the Sender-side output of the composed
`testAnyOne` is `false`, for the concrete mask draw m = [0]. -/
theorem testAnyOne_counterexample :
    testAnyOneSenderOut [1] [0] = false ∧
    ([1] : List Nat).any (fun e => e == 1) = true := by
  constructor
  · rfl
  · rfl

/-- C1 (amended): when both parties hold the same flag vector, the
Receiver's reply equals `OR masks`, so the Sender's output
`(reply ⊕ OR masks) == 1` is `false` for every flag vector and every mask
vector of matching length — the composition never reports that some
e_ℓ equals 1. -/
theorem testAnyOneSenderOut_always_false (flags masks : List Nat)
    (h : masks.length = flags.length) :
    testAnyOneSenderOut flags masks = false := by
  simp only [testAnyOneSenderOut, testAnyOneReceiverReply]
  rw [zipWith_xor_cancel flags masks h, Nat.xor_self]
  rfl

/-- Witness for the amended C1 at a concrete input. -/
theorem testAnyOneSenderOut_always_false_witness :
    testAnyOneSenderOut [1, 0, 1] [0, 1, 1] = false :=
  testAnyOneSenderOut_always_false [1, 0, 1] [0, 1, 1] (by decide)

/-! ## Receiver per-round processing (src/fpsi_receiver1backup.cpp) -/

/-- The per-block equality bit of `FPSIReceiverFixed::processQuery`
(src/fpsi_receiver1backup.cpp:270-278): 1 iff `u[idx] == v[idx]` for every
`bit < 8` whose index `idx = slot*8 + bit` lies below `d`. -/
def allEqualBit (u v : List Nat) (d slot : Nat) : Nat :=
  if (List.range 8).all (fun bit =>
      (decide (d ≤ slot * 8 + bit)) ||
      (u.getD (slot * 8 + bit) 0 == v.getD (slot * 8 + bit) 0))
  then 1 else 0

/-- The Receiver's call site of `SecretSharedPEQT::generateShares`
(src/fpsi_receiver1backup.cpp:280-282): both arguments are `all_equal`. -/
def receiverBlockShares (u v : List Nat) (d slot rnd : Nat) : Nat × Nat :=
  generateShares (allEqualBit u v d slot) (allEqualBit u v d slot) rnd

/-- Model of `FPSISenderFixed::generateSenderShares` (src/fpsi_sender1back.cpp:332-342):
every b_s is a fresh uniformly random bit, ignoring `u` and the mask. -/
def generateSenderShares (numSlots : Nat) (rnds : Nat → Nat) : List Nat :=
  (List.range numSlots).map (fun slot => rnds slot &&& 1)

/-- Counterexample to C2: with u = [0], v = [1] (block 0 mismatches, so
all_equal_0 = 0), Receiver PRNG draw 0 (a_0 = 0) and Sender PRNG draw 1
(b_0 = 1), the XOR of the Receiver's sent share and the Sender's share is
1 ≠ all_equal_0. -/
theorem ssPEQT_share_law_counterexample :
    (receiverBlockShares [0] [1] 1 0 0).1 ^^^
      (generateSenderShares 1 (fun _ => 1)).getD 0 0
      ≠ allEqualBit [0] [1] 1 0 := by
  decide

/-- C2 (amended): the primitive `generateShares` satisfies the share law
a ⊕ b = [x = y]; the Receiver invokes it with x = y = all_equal_s, so the
locally produced pair always XORs to 1 regardless of all_equal_s, and the
Sender's b_s is an independent random bit, not the second share of that
pair. -/
theorem generateShares_law :
    (∀ x y rnd, (generateShares x y rnd).1 ^^^ (generateShares x y rnd).2
        = (if x = y then 1 else 0)) ∧
    (∀ u v d slot rnd, (receiverBlockShares u v d slot rnd).1 ^^^
        (receiverBlockShares u v d slot rnd).2 = 1) := by
  have hlaw : ∀ x y rnd, (generateShares x y rnd).1 ^^^ (generateShares x y rnd).2
      = (if x = y then 1 else 0) := by
    intro x y rnd
    simp only [generateShares]
    rw [← Nat.xor_assoc, Nat.xor_self, Nat.zero_xor]
  refine ⟨hlaw, ?_⟩
  intro u v d slot rnd
  rw [receiverBlockShares, hlaw, if_pos rfl]

/-- The per-fingerprint flag computation of `FPSIReceiverFixed::processQuery`
(src/fpsi_receiver1backup.cpp:300-311): recover `sum_diff = decoded - mask`
as a signed value, set `match_count = num_slots - |sum_diff|` and compare
against `threshold_slots = num_slots - delta/8 - 1`. -/
def receiverRoundFlag (decoded randomMask numSlots delta : Nat) : Nat :=
  let sumDiff : Int := (decoded : Int) - (randomMask : Int)
  let matchCount : Int := (numSlots : Int) - |sumDiff|
  let thresholdSlots : Int := (numSlots : Int) - ((delta / 8 : Nat) : Int) - 1
  if matchCount ≥ thresholdSlots then 1 else 0

/-- Counterexample to C3: with d = 128 (16 blocks), δ = 10 (⌊δ/8⌋ = 1) and a
recovered mismatch-block count of 2 (decoded 2, mask 0), the code sets the
flag to 1 although 2 > ⌊δ/8⌋. -/
theorem receiverRoundFlag_counterexample :
    receiverRoundFlag 2 0 16 10 = 1 ∧
    ¬(|(2 : Int) - (0 : Int)| ≤ ((10 / 8 : Nat) : Int)) := by
  constructor
  · rfl
  · decide

/-- C3 (amended): the Receiver sets e_ℓ = 1 iff the recovered mismatch-block
count is at most ⌊δ/8⌋ + 1 — the comparison `match_count >=
num_slots - delta/8 - 1` grants one extra block of slack beyond ⌊δ/8⌋. -/
theorem receiverRoundFlag_iff (decoded randomMask numSlots delta : Nat) :
    receiverRoundFlag decoded randomMask numSlots delta = 1 ↔
      |(decoded : Int) - (randomMask : Int)| ≤ ((delta / 8 : Nat) : Int) + 1 := by
  simp only [receiverRoundFlag]
  generalize |(decoded : Int) - (randomMask : Int)| = a
  constructor
  · intro h1
    by_contra hc
    rw [if_neg (by omega)] at h1
    exact absurd h1 (by decide)
  · intro h1
    rw [if_pos (by omega)]

/-! ## Sender query engine (src/fpsi_sender1back.cpp) -/

/-- A BFV ciphertext, modelled by the plaintext slot vector it encrypts. -/
abbrev Ct := List Nat

/-- Model of `FPSISenderFixed::createDummyCipherVector`
(src/fpsi_sender1back.cpp:301-311): d fresh encryptions of the all-zero
plaintext (the BatchEncoder pads the encoded vector {0} with zero slots). -/
def createDummyCipherVector (d slotCount : Nat) : List Ct :=
  (List.range d).map (fun _ => List.replicate slotCount 0)

/-- Model of `FPSISenderFixed::extractBitsFromPackedCipher`
(src/fpsi_sender1back.cpp:285-299): ciphertext k is the packed ciphertext
multiplied slot-wise by the unit plaintext at slot k. -/
def extractBitsFromPackedCipher (packed : Ct) (d slotCount : Nat) : List Ct :=
  (List.range d).map (fun k =>
    (List.range slotCount).map (fun j =>
      (if j = k then 1 else 0) * packed.getD j 0))

/-- Model of `FPSISenderFixed::extractVectorFromPacked`
(src/fpsi_sender1back.cpp:252-283) after the OKVS decode produced `idx`:
an index at or beyond `n_receiver_` (or beyond the stored ciphertext array)
falls back to the dummy ciphertext vector; the surrounding try/catch means
the function always returns normally. -/
def extractVectorFromPacked (idx N d slotCount : Nat)
    (packedVectors : List Ct) : List Ct :=
  if idx ≥ N ∨ idx ≥ packedVectors.length then
    createDummyCipherVector d slotCount
  else
    extractBitsFromPackedCipher (packedVectors.getD idx []) d slotCount

/-- Model of `FPSISenderFixed::computeHomomorphicSum` (src/fpsi_sender1back.cpp:313-330):
for each k < d, encrypt the length-1 plaintext {mask[k]} (slot 0 carries the
bit, the other slots are zero) and add it to `enc_w[k]`. -/
def computeHomomorphicSum (mask : List Nat) (encW : List Ct)
    (d slotCount : Nat) : List Ct :=
  (List.range d).map (fun k =>
    (List.range slotCount).map (fun j =>
      (if j = 0 then mask.getD k 0 else 0) + (encW.getD k []).getD j 0))

/-- One kind of wire message inside a fingerprint round, as seen from the
Sender. -/
inductive RoundMsg
  | sendCt
  | sendBytes (n : Nat)
  | recvCt
  | sendU64
  | recvByte
deriving DecidableEq

/-- The message sequence of one fingerprint round of
`FPSISenderFixed::processQuery` (src/fpsi_sender1back.cpp:197-239): the
ciphertexts produced by `computeHomomorphicSum`, the d-byte vector u, the
⌈d/8⌉ encrypted Receiver shares, the masked sum, the random mask, the flag
byte. -/
def senderRoundTrace (encW : List Ct) (mask : List Nat)
    (d slotCount : Nat) : List RoundMsg :=
  (computeHomomorphicSum mask encW d slotCount).map (fun _ => RoundMsg.sendCt)
    ++ [RoundMsg.sendBytes d]
    ++ List.replicate ((d + 7) / 8) RoundMsg.recvCt
    ++ [RoundMsg.sendCt, RoundMsg.sendU64, RoundMsg.recvByte]

/-- C4: when the OKVS decode yields `idx ≥ N`, the Sender substitutes the
dummy vector of d zero encryptions without raising an error, and the round
produces exactly the same sequence, number and kinds of messages as a round
whose decoded index `idx2` was in range. -/
theorem extractVectorFromPacked_dummy (idx idx2 N d slotCount : Nat)
    (packedVectors : List Ct) (mask mask2 : List Nat)
    (h : N ≤ idx) (h2 : idx2 < N) (h3 : idx2 < packedVectors.length) :
    extractVectorFromPacked idx N d slotCount packedVectors
        = createDummyCipherVector d slotCount ∧
    senderRoundTrace (extractVectorFromPacked idx N d slotCount packedVectors)
        mask d slotCount
      = senderRoundTrace
          (extractVectorFromPacked idx2 N d slotCount packedVectors)
          mask2 d slotCount := by
  have hdum : extractVectorFromPacked idx N d slotCount packedVectors
      = createDummyCipherVector d slotCount := by
    rw [extractVectorFromPacked, if_pos (Or.inl h)]
  refine ⟨hdum, ?_⟩
  simp [senderRoundTrace, computeHomomorphicSum, List.map_map, Function.comp]

/-- Witness for C4 at a concrete input. -/
theorem extractVectorFromPacked_dummy_witness :
    extractVectorFromPacked 5 2 2 2 [[1, 0], [0, 1]]
        = createDummyCipherVector 2 2 ∧
    senderRoundTrace (extractVectorFromPacked 5 2 2 2 [[1, 0], [0, 1]])
        [1, 0] 2 2
      = senderRoundTrace (extractVectorFromPacked 1 2 2 2 [[1, 0], [0, 1]])
          [0, 1] 2 2 :=
  extractVectorFromPacked_dummy 5 1 2 2 2 [[1, 0], [0, 1]] [1, 0] [0, 1]
    (by decide) (by decide) (by decide)

/-! ## Receiver offline OKVS parameters (src/fpsi_receiver1backup.cpp) -/

/-- Model of `int m_okvs = (int)((1 + epsilon) * okvs_keys.size())` with
`epsilon = 0.05` (src/fpsi_receiver1backup.cpp:119-120). The cast truncates.
For every count in the supported range the double product truncates to the
same value as the exact rational product (the excess of the double `1.05`
over 21/20 stays far below one ulp of the distance to the next integer, and
at exact multiples of 20 the product rounds to the exact integer), so the
truncation is modelled exactly over ℚ. -/
def mOkvsOf (npairs : Nat) : Int :=
  ⌊((1 : ℚ) + 5 / 100) * npairs⌋

/-- The value the spec's words prescribe: `m_OKVS = ⌈1.05 · npairs⌉`. -/
def mOkvsSpecCeil (npairs : Nat) : Int :=
  ⌈((1 : ℚ) + 5 / 100) * npairs⌉

/-- Model of `FPSIReceiverFixed::okvsBandLength` (src/fpsi_receiver1backup.cpp:372-380). -/
def okvsBandLength (n : Nat) : Except String Nat :=
  if n ≤ 2 ^ 14 then .ok 339
  else if n ≤ 2 ^ 16 then .ok 350
  else if n ≤ 2 ^ 18 then .ok 366
  else if n ≤ 2 ^ 20 then .ok 377
  else if n ≤ 2 ^ 22 then .ok 396
  else if n ≤ 2 ^ 24 then .ok 413
  else .error "No valid band length for OKVS"

/-- Counterexample to C5: at 19 pairs the code computes m_OKVS =
⌊1.05 · 19⌋ = 19, not ⌈1.05 · 19⌉ = 20 as the claim states. -/
theorem mOkvs_counterexample : mOkvsOf 19 = 19 ∧ mOkvsSpecCeil 19 = 20 := by
  constructor
  · norm_num [mOkvsOf]
  · norm_num [mOkvsSpecCeil]
    rw [Int.ceil_eq_iff]
    norm_num

/-- C5 (amended): the encoded table size is m_OKVS = ⌊1.05 · npairs⌋
(truncation, not ceiling), and the band length is 339, 350, 366, 377, 396,
413 for pair counts at most 2^14, 2^16, 2^18, 2^20, 2^22, 2^24
respectively, with an error for any larger pair count. -/
theorem okvsParameters (n : Nat) :
    mOkvsOf n = ((21 * n / 20 : Nat) : Int) ∧
    (n ≤ 2 ^ 14 → okvsBandLength n = .ok 339) ∧
    (2 ^ 14 < n → n ≤ 2 ^ 16 → okvsBandLength n = .ok 350) ∧
    (2 ^ 16 < n → n ≤ 2 ^ 18 → okvsBandLength n = .ok 366) ∧
    (2 ^ 18 < n → n ≤ 2 ^ 20 → okvsBandLength n = .ok 377) ∧
    (2 ^ 20 < n → n ≤ 2 ^ 22 → okvsBandLength n = .ok 396) ∧
    (2 ^ 22 < n → n ≤ 2 ^ 24 → okvsBandLength n = .ok 413) ∧
    (2 ^ 24 < n → okvsBandLength n = .error "No valid band length for OKVS") := by
  refine ⟨?_, ?_, ?_, ?_, ?_, ?_, ?_, ?_⟩
  · have h1 : ((1 : ℚ) + 5 / 100) * n = ((21 * n : ℕ) : ℚ) / ((20 : ℕ) : ℚ) := by
      push_cast
      ring
    rw [mOkvsOf, h1, Rat.floor_natCast_div_natCast]
    omega
  · intro h1
    rw [okvsBandLength, if_pos h1]
  · intro h1 h2
    rw [okvsBandLength, if_neg (by omega), if_pos h2]
  · intro h1 h2
    rw [okvsBandLength, if_neg (by omega), if_neg (by omega), if_pos h2]
  · intro h1 h2
    rw [okvsBandLength, if_neg (by omega), if_neg (by omega),
      if_neg (by omega), if_pos h2]
  · intro h1 h2
    rw [okvsBandLength, if_neg (by omega), if_neg (by omega),
      if_neg (by omega), if_neg (by omega), if_pos h2]
  · intro h1 h2
    rw [okvsBandLength, if_neg (by omega), if_neg (by omega),
      if_neg (by omega), if_neg (by omega), if_neg (by omega), if_pos h2]
  · intro h1
    rw [okvsBandLength, if_neg (by omega), if_neg (by omega),
      if_neg (by omega), if_neg (by omega), if_neg (by omega),
      if_neg (by omega)]

/-- Witness for the amended C5 at a concrete input. -/
theorem okvsParameters_witness :
    mOkvsOf 19 = ((21 * 19 / 20 : Nat) : Int) ∧
    okvsBandLength 19 = .ok 339 :=
  ⟨(okvsParameters 19).1, (okvsParameters 19).2.1 (by decide)⟩

/-! ## E-LSH fingerprinter (src/unnamed/part_003, elsh.cpp)

The fingerprint strings are built with `std::to_string`, whose decimal
rendering coincides with Lean's `Nat.repr`. The following block establishes
that `Nat.repr` is injective, which is what makes the L fingerprint strings
of one vector pairwise distinct. -/

/-- Decimal digit characters of a natural number, most significant first:
the functional form of `Nat.toDigits 10`. -/
def decChars (n : Nat) : List Char :=
  if _h : n < 10 then [Nat.digitChar n]
  else decChars (n / 10) ++ [Nat.digitChar (n % 10)]
decreasing_by exact Nat.div_lt_self (by omega) (by omega)

theorem decChars_lt (n : Nat) (h : n < 10) : decChars n = [Nat.digitChar n] := by
  conv_lhs => rw [decChars]
  rw [dif_pos h]

theorem decChars_ge (n : Nat) (h : ¬ n < 10) :
    decChars n = decChars (n / 10) ++ [Nat.digitChar (n % 10)] := by
  conv_lhs => rw [decChars]
  rw [dif_neg h]

theorem decChars_ne_nil (n : Nat) : decChars n ≠ [] := by
  by_cases h : n < 10
  · rw [decChars_lt n h]
    simp
  · rw [decChars_ge n h]
    simp

theorem toDigitsCore_eq_decChars (fuel : Nat) :
    ∀ n acc, n < fuel →
    Nat.toDigitsCore 10 fuel n acc = decChars n ++ acc := by
  induction fuel with
  | zero => intro n acc h; omega
  | succ fuel ih =>
    intro n acc h
    simp only [Nat.toDigitsCore]
    by_cases h0 : n / 10 = 0
    · have hn : n < 10 := (Nat.div_eq_zero_iff (by omega)).mp h0
      rw [h0, if_pos rfl, decChars_lt n hn, Nat.mod_eq_of_lt hn]
      rfl
    · have hn : ¬ n < 10 := by
        intro hc
        exact h0 ((Nat.div_eq_zero_iff (by omega)).mpr hc)
      rw [if_neg h0, ih (n / 10) _ (by omega), decChars_ge n hn]
      simp

theorem toDigits_eq_decChars (n : Nat) : Nat.toDigits 10 n = decChars n := by
  rw [Nat.toDigits, toDigitsCore_eq_decChars (n + 1) n [] (Nat.lt_succ_self n),
    List.append_nil]

theorem digitChar_inj_lt :
    ∀ a ∈ List.range 10, ∀ b ∈ List.range 10,
      Nat.digitChar a = Nat.digitChar b → a = b := by
  decide

theorem decChars_inj (n : Nat) : ∀ m, decChars n = decChars m → n = m := by
  induction n using Nat.strong_induction_on with
  | _ n ih =>
    intro m h
    by_cases hn : n < 10 <;> by_cases hm : m < 10
    · rw [decChars_lt n hn, decChars_lt m hm] at h
      exact digitChar_inj_lt n (List.mem_range.mpr hn) m (List.mem_range.mpr hm)
        (List.cons_eq_cons.mp h).1
    · rw [decChars_lt n hn, decChars_ge m hm] at h
      have hlen := congrArg List.length h
      have h1 := List.length_pos.mpr (decChars_ne_nil (m / 10))
      simp only [List.length_cons, List.length_nil, List.length_append] at hlen
      omega
    · rw [decChars_ge n hn, decChars_lt m hm] at h
      have hlen := congrArg List.length h
      have h1 := List.length_pos.mpr (decChars_ne_nil (n / 10))
      simp only [List.length_cons, List.length_nil, List.length_append] at hlen
      omega
    · rw [decChars_ge n hn, decChars_ge m hm] at h
      have h2 := List.append_inj' h (by simp)
      have hdiv : n / 10 = m / 10 :=
        ih (n / 10) (Nat.div_lt_self (by omega) (by omega)) (m / 10) h2.1
      have hmod : n % 10 = m % 10 :=
        digitChar_inj_lt _ (List.mem_range.mpr (Nat.mod_lt _ (by omega)))
          _ (List.mem_range.mpr (Nat.mod_lt _ (by omega)))
          (List.cons_eq_cons.mp h2.2).1
      omega

theorem natRepr_inj (n m : Nat) (h : Nat.repr n = Nat.repr m) : n = m := by
  apply decChars_inj
  have hdata := congrArg String.data h
  simpa [Nat.repr, List.asString, toDigits_eq_decChars] using hdata

theorem natRepr_data_lt (p : Nat) (hp : p < 10) :
    (Nat.repr p).data = [Nat.digitChar p] := by
  show (List.asString (Nat.toDigits 10 p)).data = _
  rw [toDigits_eq_decChars, decChars_lt p hp]
  rfl

/-- The canonical fingerprint string of `ELSHFmap::computeID`
(src/unnamed/part_003:104-105):
`std::to_string(l) + "||" + std::to_string(parity)`. -/
def canonicalID (l parity : Nat) : String :=
  Nat.repr l ++ "||" ++ Nat.repr parity

/-- The parity loop of `ELSHFmap::computeID` (src/unnamed/part_003:95-102):
XOR of the entries at the subset's dimensions, skipping out-of-range
dimensions. -/
def subsetParity (subset v : List Nat) : Nat :=
  subset.foldl (fun p dim => if dim < v.length then p ^^^ v.getD dim 0 else p) 0

/-- The parity formula in the spec's words: XOR of `v[j]` over all `j ∈ S_ℓ`. -/
def specSubsetXor (subset v : List Nat) : Nat :=
  subset.foldl (fun p j => p ^^^ v.getD j 0) 0

/-- Model of `ELSHFmap::computeID` (src/unnamed/part_003:92-110): the `std::set` of
the id strings of the L subsets. -/
def computeID (subsets : List (List Nat)) (v : List Nat) : Finset String :=
  ((List.range subsets.length).map
    (fun l => canonicalID l (subsetParity (subsets.getD l []) v))).toFinset

theorem xor_le_one (a b : Nat) (ha : a ≤ 1) (hb : b ≤ 1) : a ^^^ b ≤ 1 := by
  interval_cases a <;> interval_cases b <;> decide

theorem subsetParity_le_one (subset v : List Nat) (hv : ∀ x ∈ v, x ≤ 1) :
    subsetParity subset v ≤ 1 := by
  have hgen : ∀ (s : List Nat) (acc : Nat), acc ≤ 1 →
      s.foldl (fun p dim => if dim < v.length then p ^^^ v.getD dim 0 else p)
        acc ≤ 1 := by
    intro s
    induction s with
    | nil => intro acc h; simpa
    | cons dim s ih =>
      intro acc h
      simp only [List.foldl_cons]
      apply ih
      by_cases hd : dim < v.length
      · rw [if_pos hd]
        apply xor_le_one _ _ h
        have hgd : v.getD dim 0 = v[dim] := by
          simp [List.getD_eq_getElem?_getD, List.getElem?_eq_getElem hd]
        rw [hgd]
        exact hv _ (List.getElem_mem hd)
      · rw [if_neg hd]
        exact h
  exact hgen subset 0 (by decide)

theorem subsetParity_eq_specXor (subset v : List Nat)
    (hrange : ∀ j ∈ subset, j < v.length) :
    subsetParity subset v = specSubsetXor subset v := by
  have hgen : ∀ (s : List Nat) (acc : Nat), (∀ j ∈ s, j < v.length) →
      s.foldl (fun p dim => if dim < v.length then p ^^^ v.getD dim 0 else p) acc
        = s.foldl (fun p j => p ^^^ v.getD j 0) acc := by
    intro s
    induction s with
    | nil => intro acc _; rfl
    | cons dim s ih =>
      intro acc hr
      simp only [List.foldl_cons]
      rw [if_pos (hr dim (List.mem_cons_self _ _))]
      exact ih _ (fun j hj => hr j (List.mem_cons_of_mem _ hj))
  exact hgen subset 0 hrange

theorem canonicalID_inj (l p l2 p2 : Nat) (hp : p ≤ 1) (hp2 : p2 ≤ 1)
    (h : canonicalID l p = canonicalID l2 p2) : l = l2 ∧ p = p2 := by
  have hdata := congrArg String.data h
  simp only [canonicalID, String.data_append] at hdata
  rw [natRepr_data_lt p (by omega), natRepr_data_lt p2 (by omega)] at hdata
  have hdata2 : (Nat.repr l).data ++ ['|', '|', Nat.digitChar p]
      = (Nat.repr l2).data ++ ['|', '|', Nat.digitChar p2] := by
    simpa using hdata
  have h1 := List.append_inj' hdata2 (by simp)
  have hc : Nat.digitChar p = Nat.digitChar p2 := by
    simpa using h1.2
  exact ⟨natRepr_inj l l2 (String.ext h1.1),
    digitChar_inj_lt p (List.mem_range.mpr (by omega))
      p2 (List.mem_range.mpr (by omega)) hc⟩

/-- C6: for a binary vector `v` whose dimension covers every subset index,
`computeID` returns a set of exactly L strings, one per ℓ < L, namely the
canonical string of ℓ and the XOR of `v[j]` over the ℓ-th subset. -/
theorem computeID_spec (subsets : List (List Nat)) (v : List Nat)
    (hbits : ∀ x ∈ v, x ≤ 1)
    (hrange : ∀ S ∈ subsets, ∀ j ∈ S, j < v.length) :
    (computeID subsets v).card = subsets.length ∧
    ∀ s, s ∈ computeID subsets v ↔
      ∃ l, ∃ hl : l < subsets.length,
        s = canonicalID l (specSubsetXor (subsets.get ⟨l, hl⟩) v) := by
  have hpar : ∀ l, ∀ hl : l < subsets.length,
      subsetParity (subsets.getD l []) v
        = specSubsetXor (subsets.get ⟨l, hl⟩) v := by
    intro l hl
    have hgd : subsets.getD l [] = subsets.get ⟨l, hl⟩ := by
      simp [List.getD_eq_getElem?_getD, List.getElem?_eq_getElem hl]
    rw [hgd]
    exact subsetParity_eq_specXor _ v (hrange _ (List.get_mem subsets l hl))
  have hnd : ((List.range subsets.length).map
      (fun l => canonicalID l (subsetParity (subsets.getD l []) v))).Nodup := by
    apply List.Nodup.map_on _ (List.nodup_range _)
    intro x _ y _ hf
    exact (canonicalID_inj _ _ _ _ (subsetParity_le_one _ _ hbits)
      (subsetParity_le_one _ _ hbits) hf).1
  constructor
  · rw [computeID, List.toFinset_card_of_nodup hnd, List.length_map,
      List.length_range]
  · intro s
    rw [computeID, List.mem_toFinset, List.mem_map]
    constructor
    · rintro ⟨l, hl, rfl⟩
      have hll : l < subsets.length := List.mem_range.mp hl
      exact ⟨l, hll, by rw [hpar l hll]⟩
    · rintro ⟨l, hll, rfl⟩
      exact ⟨l, List.mem_range.mpr hll, by rw [hpar l hll]⟩

/-- Witness for C6 at a concrete input. -/
theorem computeID_spec_witness :
    (computeID [[0, 1], [1, 2]] [1, 0, 1]).card = 2 := by
  have h := (computeID_spec [[0, 1], [1, 2]] [1, 0, 1]
    (by intro x hx; fin_cases hx <;> decide)
    (by intro S hS; fin_cases hS <;> (intro j hj; fin_cases hj <;> decide))).1
  simpa using h

/-- Abstract model of the C++ standard-library randomness used by the
`ELSHFmap` constructor: an `std::mt19937` engine state of type σ together
with the distribution passes applied to it. Both parties run the same
binary, so they share one implementation; the theorem quantifies over it.
`entropySeq st d` models the loop drawing d clamped probabilities from the
engine and computing their entropies (src/unnamed/part_003:34-47);
`shuffleStep st pool` models one `std::shuffle(candidates, rng)` pass
(src/unnamed/part_003:81), returning the permuted list and new state. -/
structure StdRng (σ : Type) where
  init : Nat → σ
  entropySeq : σ → Nat → List ℚ
  shuffleStep : σ → List Nat → List Nat × σ

/-- Model of `ELSHFmap::selectHighEntropyDimensions` (src/unnamed/part_003:29-69):
pair each dimension with its entropy, sort descending (ties broken by the
index, as `std::greater<std::pair<double,int>>` compares lexicographically),
keep dimensions with entropy above τ or while fewer than k·L are selected,
then pad with the smallest missing indices up to k·L. -/
def elshSelectPool (entropies : Nat → ℚ) (d : Nat) (tau : ℚ) (kL : Nat) :
    List Nat :=
  let pairs := (List.range d).map (fun i => (entropies i, i))
  let sorted := pairs.mergeSort (fun a b => decide (b ≤ a))
  let selected := sorted.foldl (fun acc ed =>
    if tau < ed.1 ∨ acc.length < kL then acc ++ [ed.2] else acc) []
  (List.range d).foldl (fun acc i =>
    if acc.length < kL ∧ i ∉ acc then acc ++ [i] else acc) selected

/-- Model of `ELSHFmap::generateRandomSubsets` (src/unnamed/part_003:71-90): a fresh
`std::mt19937 rng(42)`, then for each ℓ < L shuffle a copy of the pool and
take its first `min k |pool|` entries. -/
def elshSubsets {σ : Type} (rng : StdRng σ) (pool : List Nat) (L k : Nat) :
    List (List Nat) :=
  ((List.range L).foldl (fun (acc : List (List Nat) × σ) _ =>
      let next := rng.shuffleStep acc.2 pool
      (acc.1 ++ [next.1.take (min k next.1.length)], next.2))
    ([], rng.init 42)).1

/-- Model of the `ELSHFmap` constructor (src/unnamed/part_003:7-27), as invoked by
`FPSIReceiverFixed` and `FPSISenderFixed`: `partySeed` models the party's
own PRNG seed (`block(987654,321098)` for the Receiver,
`block(123456,789012)` for the Sender, src/fpsi_receiver1backup.cpp:31 and
src/fpsi_sender1back.cpp:30). The constructor never reads it: both of its
`std::mt19937` engines are seeded with the literal 42
(src/unnamed/part_003:34 and :72). `k = ⌈d/(δ+1)⌉` is modelled by exact
ceiling division (the double division is exact at integer quotients and its
rounding error never crosses an integer for in-range parameters). -/
def elshConstruct {σ : Type} (rng : StdRng σ) (d delta L : Nat) (tau : ℚ)
    (partySeed : Nat × Nat) : List (List Nat) :=
  let k := (d + delta) / (delta + 1)
  let entropyList := rng.entropySeq (rng.init 42) d
  let pool := elshSelectPool (fun i => entropyList.getD i 0) d tau (k * L)
  elshSubsets rng pool L k

/-- C7: the E-LSH subset derivation depends only on (d, δ, L, τ) and the
standard-library implementation shared by the two binaries — the party-local
PRNG seed is never consulted, so the Receiver (seed (987654, 321098)) and
the Sender (seed (123456, 789012)) derive identical subset lists. -/
theorem elshConstruct_seed_independent {σ : Type} (rng : StdRng σ)
    (d delta L : Nat) (tau : ℚ) (s1 s2 : Nat × Nat) :
    elshConstruct rng d delta L tau s1 = elshConstruct rng d delta L tau s2 :=
  rfl

/-! ## Receiver offline transmission (src/fpsi_receiver1backup.cpp) -/

/-- One wire message of the Receiver's offline phase. `ct n` stands for one
serialized ciphertext frame (u64 length prefix plus n bytes). -/
inductive OffMsg
  | u64 (v : Nat)
  | blockVec (bs : List (Nat × Nat))
  | blk (b : Nat × Nat)
  | i32 (v : Int)
  | ct (sizeBytes : Nat)
  | str (s : String)
deriving DecidableEq

/-- Model of `FPSIReceiverFixed::buildAndSendOKVS` (src/fpsi_receiver1backup.cpp:97-147):
compute the band length (throws for oversized inputs), encode (throws on
failure, `encodeOk` models the external encoder's success), then send the
encoded length, the encoded blocks, the seed, m_OKVS, the band length and
the item count. -/
def buildAndSendOKVSMsgs (encoded : List (Nat × Nat)) (seed : Nat × Nat)
    (nPairs : Nat) (encodeOk : Bool) : Except String (List OffMsg) :=
  match okvsBandLength nPairs with
  | .error e => .error e
  | .ok bandLength =>
    if encodeOk then
      .ok [.u64 encoded.length, .blockVec encoded, .blk seed,
           .i32 (mOkvsOf nPairs), .i32 (bandLength : Int), .i32 (nPairs : Int)]
    else .error "OKVS encoding failed"

/-- The batch loop of `FPSIReceiverFixed::sendEncryptedVectorsBatched`
(src/fpsi_receiver1backup.cpp:161-198): for each batch index b, send the
ciphertexts of slots [16b, min(16b+16, N)), send the sync token
"BATCH_b", and await the reply `acks b`; any reply other than "ACK" throws
"Batch sync failed". -/
def sendBatchesAux (cts : List Nat) (acks : Nat → String) :
    List Nat → Except String (List OffMsg)
  | [] => .ok []
  | b :: rest =>
    let slice := (cts.drop (16 * b)).take 16
    let msgs := slice.map OffMsg.ct ++ [OffMsg.str ("BATCH_" ++ Nat.repr b)]
    if acks b = "ACK" then
      match sendBatchesAux cts acks rest with
      | .ok tail => .ok (msgs ++ tail)
      | .error e => .error e
    else .error "Batch sync failed"

/-- Model of `FPSIReceiverFixed::sendEncryptedVectorsBatched`
(src/fpsi_receiver1backup.cpp:149-201): send N, then the batches. -/
def sendEncryptedVectorsBatched (cts : List Nat) (acks : Nat → String) :
    Except String (List OffMsg) :=
  match sendBatchesAux cts acks (List.range ((cts.length + 16 - 1) / 16)) with
  | .ok msgs => .ok (OffMsg.i32 (cts.length : Int) :: msgs)
  | .error e => .error e

/-- Model of `FPSIReceiverFixed::runOffline` transmission order
(src/fpsi_receiver1backup.cpp:86-88): OKVS, batched ciphertexts, public
key (`sendPublicKey`, src/fpsi_receiver1backup.cpp:203-212). -/
def receiverOffline (encoded : List (Nat × Nat)) (seed : Nat × Nat)
    (nPairs : Nat) (encodeOk : Bool) (cts : List Nat) (pk : String)
    (acks : Nat → String) : Except String (List OffMsg) :=
  match buildAndSendOKVSMsgs encoded seed nPairs encodeOk with
  | .error e => .error e
  | .ok m1 =>
    match sendEncryptedVectorsBatched cts acks with
    | .error e => .error e
    | .ok m2 => .ok (m1 ++ m2 ++ [OffMsg.str pk])

/-- Batches of 16 ciphertexts, as the spec words them. -/
def chunks16 (l : List Nat) : List (List Nat) :=
  if _h : l = [] then [] else l.take 16 :: chunks16 (l.drop 16)
termination_by l.length
decreasing_by
  cases l with
  | nil => exact absurd rfl _h
  | cons a t =>
    simp only [List.length_drop, List.length_cons]
    omega

theorem chunks16_nil : chunks16 [] = [] := by
  rw [chunks16]
  rfl

theorem chunks16_ne (l : List Nat) (h : l ≠ []) :
    chunks16 l = l.take 16 :: chunks16 (l.drop 16) := by
  conv_lhs => rw [chunks16]
  rw [dif_neg h]

/-- The trace the spec prescribes for the batches starting at batch index
b: each chunk's ciphertexts followed by its sync token. -/
def specBatchTrace (b : Nat) : List (List Nat) → List OffMsg
  | [] => []
  | c :: rest => c.map OffMsg.ct ++ [OffMsg.str ("BATCH_" ++ Nat.repr b)]
      ++ specBatchTrace (b + 1) rest

/-- The full offline trace in the order the spec states it. -/
def offlineSpecTrace (encoded : List (Nat × Nat)) (seed : Nat × Nat)
    (nPairs bandLength : Nat) (cts : List Nat) (pk : String) : List OffMsg :=
  [.u64 encoded.length, .blockVec encoded, .blk seed, .i32 (mOkvsOf nPairs),
   .i32 (bandLength : Int), .i32 (nPairs : Int)]
    ++ [.i32 (cts.length : Int)]
    ++ specBatchTrace 0 (chunks16 cts)
    ++ [.str pk]

theorem sendBatchesAux_ok (cts : List Nat) (acks : Nat → String)
    (hack : ∀ b, acks b = "ACK") :
    ∀ n b, n = ((cts.drop (16 * b)).length + 15) / 16 →
    sendBatchesAux cts acks (List.range' b n)
      = .ok (specBatchTrace b (chunks16 (cts.drop (16 * b)))) := by
  intro n
  induction n with
  | zero =>
    intro b h
    have hlen : (cts.drop (16 * b)).length = 0 := by omega
    have hnil : cts.drop (16 * b) = [] := List.eq_nil_of_length_eq_zero hlen
    rw [hnil, chunks16_nil]
    rfl
  | succ n ih =>
    intro b h
    have hne : cts.drop (16 * b) ≠ [] := by
      intro hnil
      rw [hnil] at h
      simp only [List.length_nil] at h
      omega
    rw [List.range'_succ]
    simp only [sendBatchesAux]
    rw [hack b, if_pos rfl]
    have hdd : (cts.drop (16 * b)).drop 16 = cts.drop (16 * (b + 1)) := by
      rw [List.drop_drop]
      congr 1
    have hlen2 : n = ((cts.drop (16 * (b + 1))).length + 15) / 16 := by
      have h0 : 0 < (cts.drop (16 * b)).length := by
        cases hc : cts.drop (16 * b) with
        | nil => exact absurd hc hne
        | cons a t => simp [hc]
      simp only [List.length_drop] at h h0 ⊢
      omega
    rw [ih (b + 1) hlen2, chunks16_ne _ hne, hdd]
    simp only [specBatchTrace]

theorem sendBatchesAux_error (cts : List Nat) (acks : Nat → String) :
    ∀ is : List Nat, (∃ b ∈ is, acks b ≠ "ACK") →
    ∃ e, sendBatchesAux cts acks is = .error e := by
  intro is
  induction is with
  | nil =>
    rintro ⟨b, hb, _⟩
    cases hb
  | cons b rest ih =>
    rintro ⟨b2, hb2, hbad⟩
    simp only [sendBatchesAux]
    by_cases hb : acks b = "ACK"
    · rcases List.mem_cons.mp hb2 with rfl | hmem
      · exact absurd hb hbad
      · obtain ⟨e, he⟩ := ih ⟨b2, hmem, hbad⟩
        rw [hb, if_pos rfl, he]
        exact ⟨e, rfl⟩
    · rw [if_neg hb]
      exact ⟨"Batch sync failed", rfl⟩

/-- C8: with a working encoder and an in-range pair count, the Receiver's
offline phase sends exactly, in order, the OKVS tuple (encoded length,
blocks, seed, m_OKVS, band length, item count), then N, then the N packed
ciphertexts in batches of 16 each followed by its sync token (awaiting an
ACK), then the public key; and if any batch reply differs from "ACK" the
phase raises an error. -/
theorem receiverOffline_trace (encoded : List (Nat × Nat)) (seed : Nat × Nat)
    (nPairs : Nat) (cts : List Nat) (pk : String) (acks : Nat → String)
    (bandLength : Nat) (hband : okvsBandLength nPairs = .ok bandLength) :
    ((∀ b, acks b = "ACK") →
      receiverOffline encoded seed nPairs true cts pk acks
        = .ok (offlineSpecTrace encoded seed nPairs bandLength cts pk)) ∧
    (∀ b, b < (cts.length + 16 - 1) / 16 → acks b ≠ "ACK" →
      ∃ e, receiverOffline encoded seed nPairs true cts pk acks
        = .error e) := by
  have hok : buildAndSendOKVSMsgs encoded seed nPairs true
      = .ok [.u64 encoded.length, .blockVec encoded, .blk seed,
             .i32 (mOkvsOf nPairs), .i32 (bandLength : Int),
             .i32 (nPairs : Int)] := by
    rw [buildAndSendOKVSMsgs, hband]
    rfl
  constructor
  · intro hack
    have hb := sendBatchesAux_ok cts acks hack ((cts.length + 15) / 16) 0
      (by simp)
    have hrange : List.range ((cts.length + 16 - 1) / 16)
        = List.range' 0 ((cts.length + 15) / 16) := by
      rw [List.range_eq_range']
      congr 1
    rw [receiverOffline, hok, sendEncryptedVectorsBatched, hrange, hb]
    simp only [List.drop_zero] at hb ⊢
    rw [offlineSpecTrace]
    simp
  · intro b hblt hbad
    have hrange : List.range ((cts.length + 16 - 1) / 16)
        = List.range' 0 ((cts.length + 15) / 16) := by
      rw [List.range_eq_range']
      congr 1
    have hmem : b ∈ List.range ((cts.length + 16 - 1) / 16) :=
      List.mem_range.mpr hblt
    obtain ⟨e, he⟩ := sendBatchesAux_error cts acks _ ⟨b, hmem, hbad⟩
    rw [receiverOffline, hok, sendEncryptedVectorsBatched, he]
    exact ⟨e, rfl⟩

/-- Witness for C8 at a concrete input. -/
theorem receiverOffline_trace_witness :
    receiverOffline [(1, 2)] (3, 4) 5 true [10, 20] "PK" (fun _ => "ACK")
      = .ok (offlineSpecTrace [(1, 2)] (3, 4) 5 339 [10, 20] "PK") :=
  (receiverOffline_trace [(1, 2)] (3, 4) 5 [10, 20] "PK" (fun _ => "ACK")
    339 rfl).1 (fun _ => rfl)

end FPSI
